import Mathlib

/-!
Verification development for the pendulum-collision simulator
(`BallCollision.cpp`, plain and scaling variants): shallow embedding of its
rasterization primitives (Bresenham line, scanline circle fill, glow ring,
per-pixel shading, alpha blending) and of its physics engine (pendulum
integration, elastic collision resolution, scale animation), with theorems
about the embedded definitions.  Machine floats are embedded as exact
rationals (or, where a statement needs genuine trigonometric values, as real
numbers), with the platform's `sin`/`cos`/`sqrt` passed in as explicit
function parameters.
-/

set_option maxHeartbeats 1000000

namespace CGSim

/-! ### Constants (from the source, exact decimal values) -/

def WIN_W : ℤ := 900
def WIN_H : ℤ := 700
def GRAVITY : ℚ := 980
def DAMPING : ℚ := 9996 / 10000
def BALL_BASE_RADIUS : ℤ := 28
def SCALE_MIN : ℚ := 2 / 5
def SCALE_MAX : ℚ := 13 / 5
def SCALE_LERP : ℚ := 4

/-- C-style cast of a fractional value to `int`: truncation toward zero. -/
def ratTrunc (q : ℚ) : ℤ := if q < 0 then -(⌊-q⌋) else ⌊q⌋

/-! ### Scale animation (scaling variant: `Ball::scaledRadius`,
`Ball::updateScale`, `randomClampedScale`, `randomiseScales`) -/

/-- `Ball::scaledRadius`: multiply base by current factor, truncate to `int`,
and never let it go below 1. -/
def scaledRadius (baseRadius : ℤ) (scaleFactor : ℚ) : ℤ :=
  let r : ℤ := ratTrunc ((baseRadius : ℚ) * scaleFactor)
  if r < 1 then 1 else r

/-- The spec-side definition of the derived effective radius, written from the
spec's words for comparison with `scaledRadius`: `round(baseRadius *
scaleFactor)` to the nearest integer, floored at 1. -/
def specEffectiveRadius (baseRadius : ℤ) (scaleFactor : ℚ) : ℤ :=
  let r : ℤ := round ((baseRadius : ℚ) * scaleFactor)
  if r < 1 then 1 else r

/-- Per-body scale-animation state: current factor and click-chosen target. -/
structure ScaleState where
  factor : ℚ
  target : ℚ
deriving DecidableEq

/-- `Ball::updateScale`: move `scaleFactor` a fraction `SCALE_LERP * dt` of the
remaining gap toward `scaleTarget`; if the move overshoots, snap to the
target. -/
def updateScale (dt : ℚ) (s : ScaleState) : ScaleState :=
  let diff := s.target - s.factor
  let move := diff * SCALE_LERP * dt
  if (0 < diff ∧ diff < move) ∨ (diff < 0 ∧ move < diff) then
    { s with factor := s.target }
  else
    { s with factor := s.factor + move }

/-- `randomClampedScale`: map a random sample to
`[SCALE_MIN, SCALE_MAX]` and clamp (belt and suspenders). -/
def randomClampedScale (u : ℚ) : ℚ :=
  let r := SCALE_MIN + u * (SCALE_MAX - SCALE_MIN)
  if r < SCALE_MIN then SCALE_MIN else if SCALE_MAX < r then SCALE_MAX else r

/-- Frame-boundary events touching the two bodies' scale state: a left click
(`randomiseScales`, independent samples for the two balls) or a frame's
`updateScale` call with that frame's delta time. -/
inductive ScaleEvent where
  | randomize (u0 u1 : ℚ)
  | frame (dt : ℚ)

/-- Effect of one event on the pair of scale states. -/
def scaleStep (p : ScaleState × ScaleState) (e : ScaleEvent) :
    ScaleState × ScaleState :=
  match e with
  | .randomize u0 u1 =>
      ({ p.1 with target := randomClampedScale u0 },
       { p.2 with target := randomClampedScale u1 })
  | .frame dt => (updateScale dt p.1, updateScale dt p.2)

/-- `resetSimulation` scale fields: `scaleFactor = scaleTarget = 1` for both
balls. -/
def resetScales : ScaleState × ScaleState :=
  ({ factor := 1, target := 1 }, { factor := 1, target := 1 })

/-- Both bodies' scale state after a sequence of events, starting from the
reset values. -/
def scaleRun (es : List ScaleEvent) : ScaleState × ScaleState :=
  es.foldl scaleStep resetScales

/-- A frame event carries a physically meaningful (nonnegative) delta time. -/
def validEvent : ScaleEvent → Prop
  | .frame dt => 0 ≤ dt
  | .randomize _ _ => True

/-- Scale value in the clamp range. -/
def scaleInRange (s : ScaleState) : Prop :=
  SCALE_MIN ≤ s.factor ∧ s.factor ≤ SCALE_MAX ∧
    SCALE_MIN ≤ s.target ∧ s.target ≤ SCALE_MAX

lemma randomClampedScale_mem (u : ℚ) :
    SCALE_MIN ≤ randomClampedScale u ∧ randomClampedScale u ≤ SCALE_MAX := by
  simp only [randomClampedScale, SCALE_MIN, SCALE_MAX]
  split_ifs with h1 h2 <;> constructor <;> norm_num <;> linarith

lemma updateScale_preserves {dt : ℚ} (hdt : 0 ≤ dt) {s : ScaleState}
    (hs : scaleInRange s) : scaleInRange (updateScale dt s) := by
  obtain ⟨h1, h2, h3, h4⟩ := hs
  simp only [updateScale]
  split_ifs with h
  · exact ⟨h3, h4, h3, h4⟩
  · push_neg at h
    obtain ⟨hA, hB⟩ := h
    have hL : (0 : ℚ) < SCALE_LERP := by norm_num [SCALE_LERP]
    have hbounds :
        SCALE_MIN ≤ s.factor + (s.target - s.factor) * SCALE_LERP * dt ∧
          s.factor + (s.target - s.factor) * SCALE_LERP * dt ≤ SCALE_MAX := by
      rcases lt_trichotomy (s.target - s.factor) 0 with hd | hd | hd
      · have hm1 := hB hd
        have hm2 : (s.target - s.factor) * SCALE_LERP * dt ≤ 0 := by
          nlinarith [mul_nonneg (mul_nonneg hL.le hdt) (neg_nonneg.mpr hd.le)]
        constructor <;> linarith
      · rw [hd, zero_mul, zero_mul, add_zero]
        exact ⟨h1, h2⟩
      · have hm1 := hA hd
        have hm2 : 0 ≤ (s.target - s.factor) * SCALE_LERP * dt := by
          nlinarith [mul_nonneg (mul_nonneg hL.le hdt) hd.le]
        constructor <;> linarith
    exact ⟨hbounds.1, hbounds.2, h3, h4⟩

lemma scaleStep_preserves {p : ScaleState × ScaleState} {e : ScaleEvent}
    (he : validEvent e) (hp : scaleInRange p.1 ∧ scaleInRange p.2) :
    scaleInRange (scaleStep p e).1 ∧ scaleInRange (scaleStep p e).2 := by
  cases e with
  | randomize u0 u1 =>
      obtain ⟨⟨hp1, hp2, _, _⟩, ⟨hq1, hq2, _, _⟩⟩ := hp
      exact ⟨⟨hp1, hp2, (randomClampedScale_mem u0).1,
              (randomClampedScale_mem u0).2⟩,
             ⟨hq1, hq2, (randomClampedScale_mem u1).1,
              (randomClampedScale_mem u1).2⟩⟩
  | frame dt =>
      exact ⟨updateScale_preserves he hp.1, updateScale_preserves he hp.2⟩

lemma scaleFold_preserves (es : List ScaleEvent)
    (h : ∀ e ∈ es, validEvent e) (p : ScaleState × ScaleState)
    (hp : scaleInRange p.1 ∧ scaleInRange p.2) :
    scaleInRange (es.foldl scaleStep p).1 ∧
      scaleInRange (es.foldl scaleStep p).2 := by
  induction es generalizing p with
  | nil => exact hp
  | cons e es ih =>
      simp only [List.foldl_cons]
      exact ih (fun e' he' => h e' (List.mem_cons_of_mem _ he'))
        (scaleStep p e)
        (scaleStep_preserves (h e (List.mem_cons_self _ _)) hp)

/-- Claim C2 (counterexample): `Ball::scaledRadius` truncates
`baseRadius * scaleFactor` toward zero, it does not round to the nearest
integer.  At `baseRadius = 28`, `scaleFactor = 1.7` (inside
`[SCALE_MIN, SCALE_MAX]`) the product is `47.6`; the code returns `47` while
the claimed `round`-based derivation gives `48`. -/
theorem scaledRadius_trunc_ne_round :
    SCALE_MIN ≤ (17 / 10 : ℚ) ∧ (17 / 10 : ℚ) ≤ SCALE_MAX ∧
      scaledRadius 28 (17 / 10) = 47 ∧ specEffectiveRadius 28 (17 / 10) = 48 ∧
      scaledRadius 28 (17 / 10) ≠ specEffectiveRadius 28 (17 / 10) := by
  have hq : ((28 : ℤ) : ℚ) * (17 / 10) = 238 / 5 := by norm_num
  have hfl : ⌊(238 / 5 : ℚ)⌋ = (47 : ℤ) := by
    rw [Int.floor_eq_iff] ; norm_num
  have hrd : round ((238 : ℚ) / 5) = (48 : ℤ) := by
    rw [round_eq, show (238 : ℚ) / 5 + 1 / 2 = 481 / 10 by norm_num,
      Int.floor_eq_iff] ; norm_num
  have h1 : scaledRadius 28 (17 / 10) = 47 := by
    simp only [scaledRadius, ratTrunc, hq]
    rw [if_neg (by norm_num : ¬(238 / 5 : ℚ) < 0), hfl]
    norm_num
  have h2 : specEffectiveRadius 28 (17 / 10) = 48 := by
    simp only [specEffectiveRadius, hq, hrd]
    norm_num
  exact ⟨by norm_num [SCALE_MIN], by norm_num [SCALE_MAX], h1, h2,
    by rw [h1, h2]; decide⟩

/-- Claim C2 (amended): for every base radius `≥ 1` and every scale factor in
`[SCALE_MIN, SCALE_MAX]`, the derived effective radius equals
`baseRadius * scaleFactor` truncated toward zero (equivalently, its floor,
the product being nonnegative), floored at 1; in particular it is always
`≥ 1`. -/
theorem scaledRadius_eq_floor (b : ℤ) (s : ℚ) (hb : 1 ≤ b)
    (hs1 : SCALE_MIN ≤ s) (hs2 : s ≤ SCALE_MAX) :
    scaledRadius b s = max 1 ⌊(b : ℚ) * s⌋ ∧ 1 ≤ scaledRadius b s := by
  have hb0 : (0 : ℤ) ≤ b := le_trans zero_le_one hb
  have hprod : (0 : ℚ) ≤ (b : ℚ) * s := by
    have hbq : (0 : ℚ) ≤ (b : ℚ) := by exact_mod_cast hb0
    have hsq : (0 : ℚ) ≤ s := le_trans (by norm_num [SCALE_MIN]) hs1
    exact mul_nonneg hbq hsq
  have htr : ratTrunc ((b : ℚ) * s) = ⌊(b : ℚ) * s⌋ := by
    unfold ratTrunc
    rw [if_neg (not_lt.mpr hprod)]
  constructor
  · simp only [scaledRadius, htr]
    rcases le_or_lt 1 ⌊(b : ℚ) * s⌋ with h | h
    · rw [if_neg (not_lt.mpr h), max_eq_right h]
    · rw [if_pos h, max_eq_left h.le]
  · simp only [scaledRadius, htr]
    split_ifs with h <;> omega

/-- Witness for `scaledRadius_eq_floor` at `b = 28`, `s = 1.7`. -/
theorem scaledRadius_eq_floor_witness :
    ((1 : ℤ) ≤ 28 ∧ SCALE_MIN ≤ (17 / 10 : ℚ) ∧ (17 / 10 : ℚ) ≤ SCALE_MAX) ∧
      (scaledRadius 28 (17 / 10) = max 1 ⌊(28 : ℚ) * (17 / 10)⌋ ∧
        1 ≤ scaledRadius 28 (17 / 10)) :=
  ⟨⟨by norm_num, by norm_num [SCALE_MIN], by norm_num [SCALE_MAX]⟩,
    scaledRadius_eq_floor 28 (17 / 10) (by norm_num)
      (by norm_num [SCALE_MIN]) (by norm_num [SCALE_MAX])⟩

/-- Claim C3: starting from the reset values, any sequence of
randomize-scale events and frames (with nonnegative frame delta times)
keeps both bodies' `scaleFactor` and `scaleTarget` inside
`[SCALE_MIN, SCALE_MAX]` at every frame boundary. -/
theorem scale_clamp_invariant (es : List ScaleEvent)
    (h : ∀ e ∈ es, validEvent e) :
    scaleInRange (scaleRun es).1 ∧ scaleInRange (scaleRun es).2 :=
  scaleFold_preserves es h resetScales
    (by norm_num [resetScales, scaleInRange, SCALE_MIN, SCALE_MAX])

/-- Witness for `scale_clamp_invariant` on a concrete event sequence: a
randomize with out-of-range raw samples, three frames (one with a large
delta time), then another randomize. -/
theorem scale_clamp_invariant_witness :
    (∀ e ∈ [ScaleEvent.randomize 7 (-2), ScaleEvent.frame (1 / 30),
        ScaleEvent.frame 100, ScaleEvent.randomize (1 / 2) 0,
        ScaleEvent.frame 0], validEvent e) ∧
      (scaleInRange (scaleRun [ScaleEvent.randomize 7 (-2),
          ScaleEvent.frame (1 / 30), ScaleEvent.frame 100,
          ScaleEvent.randomize (1 / 2) 0, ScaleEvent.frame 0]).1 ∧
        scaleInRange (scaleRun [ScaleEvent.randomize 7 (-2),
          ScaleEvent.frame (1 / 30), ScaleEvent.frame 100,
          ScaleEvent.randomize (1 / 2) 0, ScaleEvent.frame 0]).2) :=
  have hv : ∀ e ∈ [ScaleEvent.randomize 7 (-2), ScaleEvent.frame (1 / 30),
      ScaleEvent.frame 100, ScaleEvent.randomize (1 / 2) 0,
      ScaleEvent.frame 0], validEvent e := by
    simp only [List.forall_mem_cons, List.forall_mem_nil, validEvent]
    norm_num
  ⟨hv, scale_clamp_invariant _ hv⟩

/-! ### Physics engine (`Ball`, `physicsTick`)

The body state and the two stages of `physicsTick`, generic over an ordered
field so that the same definitions can be read with exact rationals (for
executable witnesses) or with real numbers and the true `sin`/`cos`/`sqrt`
(for statements needing genuine trigonometric values).  The platform's math
functions are explicit parameters `sinf`, `cosf`, `sqrtf`. -/

structure Ball (α : Type) where
  pivotX : α
  pivotY : α
  length : α
  angle : α
  angularVel : α
  radius : ℤ
  x : α
  y : α
deriving DecidableEq

variable {α : Type} [LinearOrderedField α]

/-- `Ball::updatePosition`: tip position derived from pivot, length, angle. -/
def updatePosition (sinf cosf : α → α) (b : Ball α) : Ball α :=
  { b with x := b.pivotX + b.length * sinf b.angle,
           y := b.pivotY + b.length * cosf b.angle }

/-- Stage 1 of `physicsTick` for one body: pendulum torque, damping,
explicit-Euler angle update, tip recomputation. -/
def integrate (sinf cosf : α → α) (dt : α) (b : Ball α) : Ball α :=
  let accel := -((980 : α) / b.length) * sinf b.angle
  let v2 := (b.angularVel + accel * dt) * ((9996 : α) / 10000)
  updatePosition sinf cosf { b with angularVel := v2, angle := b.angle + v2 * dt }

/-- Stage 2 of `physicsTick`: elastic collision between the two tips, with
impulse transfer and positional de-penetration along the x-component of the
contact normal. -/
def resolveCollision (sinf cosf sqrtf : α → α) (A B : Ball α) :
    Ball α × Ball α :=
  let dx := B.x - A.x
  let dy := B.y - A.y
  let dist := sqrtf (dx * dx + dy * dy)
  let minD : α := ((A.radius + B.radius : ℤ) : α)
  if dist < minD ∧ (1 : α) / 1000 < dist then
    let nx := dx / dist
    let ny := dy / dist
    let vAx := A.angularVel * A.length * cosf A.angle
    let vAy := -A.angularVel * A.length * sinf A.angle
    let vBx := B.angularVel * B.length * cosf B.angle
    let vBy := -B.angularVel * B.length * sinf B.angle
    let relVn := (vAx - vBx) * nx + (vAy - vBy) * ny
    if 0 < relVn then
      let j := relVn
      let tAx := cosf A.angle
      let tAy := -sinf A.angle
      let tBx := cosf B.angle
      let tBy := -sinf B.angle
      let dOmA := -(j * (nx * tAx + ny * tAy)) / A.length
      let dOmB := (j * (nx * tBx + ny * tBy)) / B.length
      let overlap := minD - dist
      let cA0 := cosf A.angle
      let cA := if |cA0| < 1 / 100 then
          (if 0 ≤ cA0 then (1 : α) / 100 else -(1 / 100)) else cA0
      let cB0 := cosf B.angle
      let cB := if |cB0| < 1 / 100 then
          (if 0 ≤ cB0 then (1 : α) / 100 else -(1 / 100)) else cB0
      let A1 := { A with
        angularVel := A.angularVel + dOmA,
        angle := A.angle - overlap * (1 / 2) * nx / (A.length * cA) }
      let B1 := { B with
        angularVel := B.angularVel + dOmB,
        angle := B.angle + overlap * (1 / 2) * nx / (B.length * cB) }
      (updatePosition sinf cosf A1, updatePosition sinf cosf B1)
    else (A, B)
  else (A, B)

/-- Claim C6: a body at the stable equilibrium (`angle = 0`,
`angularVelocity = 0`) stays there under any number of integration steps
with any positive step sizes, since the torque term vanishes at angle 0
(`sin 0 = 0`). -/
theorem pendulum_rest_stays (sinf cosf : ℚ → ℚ) (hsin : sinf 0 = 0)
    (dts : List ℚ) (hdts : ∀ dt ∈ dts, 0 < dt) (b : Ball ℚ)
    (ha : b.angle = 0) (hv : b.angularVel = 0) :
    (dts.foldl (fun s dt => integrate sinf cosf dt s) b).angle = 0 ∧
      (dts.foldl (fun s dt => integrate sinf cosf dt s) b).angularVel = 0 := by
  induction dts generalizing b with
  | nil => exact ⟨ha, hv⟩
  | cons dt dts ih =>
      simp only [List.foldl_cons]
      refine ih (fun d hd => hdts d (List.mem_cons_of_mem _ hd)) _ ?_ ?_ <;>
        simp [integrate, updatePosition, ha, hv, hsin]

/-- Witness for `pendulum_rest_stays`: zero-at-zero sine, two concrete
positive steps, a concrete body at rest. -/
theorem pendulum_rest_stays_witness :
    ((fun _ : ℚ => (0 : ℚ)) 0 = 0 ∧
      (∀ dt ∈ [(1 : ℚ), 1 / 2], 0 < dt) ∧
      (Ball.mk 450 80 220 0 0 28 450 300 : Ball ℚ).angle = 0 ∧
      (Ball.mk 450 80 220 0 0 28 450 300 : Ball ℚ).angularVel = 0) ∧
      (([(1 : ℚ), 1 / 2].foldl
          (fun s dt => integrate (fun _ => 0) (fun _ => 1) dt s)
          (Ball.mk 450 80 220 0 0 28 450 300)).angle = 0 ∧
        ([(1 : ℚ), 1 / 2].foldl
          (fun s dt => integrate (fun _ => 0) (fun _ => 1) dt s)
          (Ball.mk 450 80 220 0 0 28 450 300)).angularVel = 0) :=
  have hdts : ∀ dt ∈ [(1 : ℚ), 1 / 2], 0 < dt := by
    simp only [List.forall_mem_cons, List.forall_mem_nil]
    norm_num
  ⟨⟨rfl, hdts, rfl, rfl⟩,
    pendulum_rest_stays (fun _ => 0) (fun _ => 1) rfl [(1 : ℚ), 1 / 2] hdts
      _ rfl rfl⟩

/-- Claim C7: with `DAMPING = 0.9996 < 1` and zero driving torque at the
current state (`sin(angle) = 0`), one integration sub-step does not increase
`|angularVelocity|`; hence along any stretch of sub-steps with vanishing
torque, `|angularVelocity|` is non-increasing. -/
theorem damping_nonincreasing (sinf cosf : ℚ → ℚ) (dt : ℚ) (b : Ball ℚ)
    (htorque : sinf b.angle = 0) :
    |(integrate sinf cosf dt b).angularVel| ≤ |b.angularVel| := by
  simp only [integrate, updatePosition, htorque]
  rw [show b.angularVel + -(980 / b.length) * 0 * dt = b.angularVel by ring]
  rw [abs_mul]
  nlinarith [abs_nonneg b.angularVel, abs_nonneg ((9996 : ℚ) / 10000),
    abs_of_pos (show (0 : ℚ) < 9996 / 10000 by norm_num)]

/-- Witness for `damping_nonincreasing` at a concrete moving body with zero
torque. -/
theorem damping_nonincreasing_witness :
    ((fun _ : ℚ => (0 : ℚ)) (Ball.mk 450 80 220 0 3 28 450 300 : Ball ℚ).angle
        = 0) ∧
      |(integrate (fun _ : ℚ => (0 : ℚ)) (fun _ => 1) (1 / 60)
          (Ball.mk 450 80 220 0 3 28 450 300)).angularVel| ≤
        |(Ball.mk 450 80 220 0 3 28 450 300 : Ball ℚ).angularVel| :=
  ⟨rfl, damping_nonincreasing (fun _ => 0) (fun _ => 1) (1 / 60) _ rfl⟩

/-- Claim C5: if, after integration, the tip distance is at least the sum of
the radii, or is at most `0.001`, or the relative closing speed along the
normal is `≤ 0`, then the collision-resolution stage returns both bodies
unchanged (same angle, angular velocity and tip position). -/
theorem resolveCollision_guard_unchanged (sinf cosf sqrtf : ℚ → ℚ)
    (A B : Ball ℚ)
    (h : ((A.radius + B.radius : ℤ) : ℚ) ≤
          sqrtf ((B.x - A.x) * (B.x - A.x) + (B.y - A.y) * (B.y - A.y)) ∨
        sqrtf ((B.x - A.x) * (B.x - A.x) + (B.y - A.y) * (B.y - A.y)) ≤
          1 / 1000 ∨
        (A.angularVel * A.length * cosf A.angle -
              B.angularVel * B.length * cosf B.angle) *
            ((B.x - A.x) /
              sqrtf ((B.x - A.x) * (B.x - A.x) + (B.y - A.y) * (B.y - A.y))) +
          (-A.angularVel * A.length * sinf A.angle -
              -B.angularVel * B.length * sinf B.angle) *
            ((B.y - A.y) /
              sqrtf ((B.x - A.x) * (B.x - A.x) + (B.y - A.y) * (B.y - A.y)))
          ≤ 0) :
    resolveCollision sinf cosf sqrtf A B = (A, B) := by
  simp only [resolveCollision]
  rcases h with h | h | h
  · split_ifs with h1 h2 <;> first | rfl | exact absurd h1.1 (not_lt.mpr h)
  · split_ifs with h1 h2 <;> first | rfl | exact absurd h1.2 (not_lt.mpr h)
  · split_ifs with h1 h2 <;> first | rfl | exact absurd h2 (not_lt.mpr h)

/-- Witness for `resolveCollision_guard_unchanged`: a degenerate square root
function returning `0` makes the distance guard (`dist ≤ 0.001`) hold at two
concrete bodies. -/
theorem resolveCollision_guard_unchanged_witness :
    ((((Ball.mk 390 80 220 (-1 / 2) 1 28 450 300 : Ball ℚ).radius +
          (Ball.mk 510 80 240 (1 / 2) (-1) 28 460 300 : Ball ℚ).radius : ℤ) :
            ℚ) ≤ 0 ∨ (0 : ℚ) ≤ 1 / 1000 ∨ True) ∧
      resolveCollision (fun _ : ℚ => (0 : ℚ)) (fun _ => 1) (fun _ => 0)
          (Ball.mk 390 80 220 (-1 / 2) 1 28 450 300)
          (Ball.mk 510 80 240 (1 / 2) (-1) 28 460 300) =
        (Ball.mk 390 80 220 (-1 / 2) 1 28 450 300,
          Ball.mk 510 80 240 (1 / 2) (-1) 28 460 300) :=
  ⟨Or.inr (Or.inl (by norm_num)),
    resolveCollision_guard_unchanged (fun _ => 0) (fun _ => 1) (fun _ => 0)
      _ _ (Or.inr (Or.inl (by norm_num)))⟩

/-- Evaluation of `resolveCollision` with the true real `sin`/`cos`/`sqrt`
at two vertically aligned, deeply overlapping, approaching tips (both arms
horizontal at angle `π/2`): the routine fires (the impulse changes both
angular velocities) but the positional correction, which acts only through
the x-component of the contact normal (`nx = 0` here), moves neither angle,
so both tips stay where they were. -/
lemma resolveCollision_ctex_eval :
    resolveCollision Real.sin Real.cos Real.sqrt
        (Ball.mk 0 0 100 (Real.pi / 2) (-1) 28 100 0)
        (Ball.mk (-1) 3 101 (Real.pi / 2) 0 28 100 3) =
      (Ball.mk 0 0 100 (Real.pi / 2) 0 28 100 0,
        Ball.mk (-1) 3 101 (Real.pi / 2) (-(100 / 101)) 28 100 3) := by
  have h9 : Real.sqrt 9 = 3 := by
    rw [show (9 : ℝ) = 3 ^ 2 by norm_num]
    exact Real.sqrt_sq (by norm_num)
  simp only [resolveCollision, updatePosition, Real.sin_pi_div_two,
    Real.cos_pi_div_two]
  norm_num [h9]

/-- Claim C1 (counterexample): `resolveCollision` fires on this concrete
pair of bodies (it changes the state), yet the post-correction tip distance
is `3`, which is `53` below `minDist = 56` — non-penetration fails by far
more than a rounding tolerance.  The two tips are vertically aligned, so the
positional correction (proportional to the x-component of the contact
normal) vanishes. -/
theorem resolveCollision_nonpenetration_ctex :
    resolveCollision Real.sin Real.cos Real.sqrt
        (Ball.mk 0 0 100 (Real.pi / 2) (-1) 28 100 0)
        (Ball.mk (-1) 3 101 (Real.pi / 2) 0 28 100 3) ≠
      (Ball.mk 0 0 100 (Real.pi / 2) (-1) 28 100 0,
        Ball.mk (-1) 3 101 (Real.pi / 2) 0 28 100 3) ∧
    Real.sqrt
        (((resolveCollision Real.sin Real.cos Real.sqrt
              (Ball.mk 0 0 100 (Real.pi / 2) (-1) 28 100 0)
              (Ball.mk (-1) 3 101 (Real.pi / 2) 0 28 100 3)).2.x -
            (resolveCollision Real.sin Real.cos Real.sqrt
              (Ball.mk 0 0 100 (Real.pi / 2) (-1) 28 100 0)
              (Ball.mk (-1) 3 101 (Real.pi / 2) 0 28 100 3)).1.x) ^ 2 +
          ((resolveCollision Real.sin Real.cos Real.sqrt
              (Ball.mk 0 0 100 (Real.pi / 2) (-1) 28 100 0)
              (Ball.mk (-1) 3 101 (Real.pi / 2) 0 28 100 3)).2.y -
            (resolveCollision Real.sin Real.cos Real.sqrt
              (Ball.mk 0 0 100 (Real.pi / 2) (-1) 28 100 0)
              (Ball.mk (-1) 3 101 (Real.pi / 2) 0 28 100 3)).1.y) ^ 2) + 50 <
      (((Ball.mk 0 0 100 (Real.pi / 2) (-1) 28 100 0 : Ball ℝ).radius +
          (Ball.mk (-1) 3 101 (Real.pi / 2) 0 28 100 3 : Ball ℝ).radius :
          ℤ) : ℝ) := by
  have h9 : Real.sqrt 9 = 3 := by
    rw [show (9 : ℝ) = 3 ^ 2 by norm_num]
    exact Real.sqrt_sq (by norm_num)
  constructor
  · rw [resolveCollision_ctex_eval]
    intro hcontra
    have hvel := congrArg (fun p => (p.1).angularVel) hcontra
    norm_num at hvel
  · rw [resolveCollision_ctex_eval]
    norm_num [h9]

/-- Claim C1 (amended): when the two tips are vertically aligned
(`B.x = A.x`) and each tip position is consistent with its pivot, length and
angle, `resolveCollision` leaves both bodies' angles and tip positions
unchanged even when it fires — the positional correction acts only through
the x-component of the contact normal, so no non-penetration bound on the
post-correction distance holds in general. -/
theorem resolveCollision_vertical_no_separation (sinf cosf sqrtf : α → α)
    (A B : Ball α) (hdx : B.x = A.x)
    (hAx : A.x = A.pivotX + A.length * sinf A.angle)
    (hAy : A.y = A.pivotY + A.length * cosf A.angle)
    (hBx : B.x = B.pivotX + B.length * sinf B.angle)
    (hBy : B.y = B.pivotY + B.length * cosf B.angle) :
    ((resolveCollision sinf cosf sqrtf A B).1.angle = A.angle ∧
        (resolveCollision sinf cosf sqrtf A B).1.x = A.x ∧
        (resolveCollision sinf cosf sqrtf A B).1.y = A.y) ∧
      ((resolveCollision sinf cosf sqrtf A B).2.angle = B.angle ∧
        (resolveCollision sinf cosf sqrtf A B).2.x = B.x ∧
        (resolveCollision sinf cosf sqrtf A B).2.y = B.y) := by
  simp only [resolveCollision, hdx, sub_self]
  split_ifs <;>
    simp only [updatePosition, zero_div, mul_zero, zero_mul, sub_zero,
      add_zero, zero_add] <;>
    refine ⟨⟨?_, ?_, ?_⟩, ⟨?_, ?_, ?_⟩⟩ <;>
    first
      | trivial
      | rfl
      | exact hAx.symm
      | exact hAy.symm
      | exact hBy.symm
      | exact hdx
      | exact hBx.symm.trans hdx

/-- Witness for `resolveCollision_vertical_no_separation` at a concrete
rational instance (the analogue of the real counterexample, with the
platform trigonometry frozen at the values it takes there). -/
theorem resolveCollision_vertical_no_separation_witness :
    ((Ball.mk (-1) 3 101 7 0 28 100 3 : Ball ℚ).x =
        (Ball.mk 0 0 100 7 (-1) 28 100 0 : Ball ℚ).x ∧
      (Ball.mk 0 0 100 7 (-1) 28 100 0 : Ball ℚ).x =
        0 + 100 * (fun _ : ℚ => (1 : ℚ)) 7 ∧
      (Ball.mk (-1) 3 101 7 0 28 100 3 : Ball ℚ).x =
        -1 + 101 * (fun _ : ℚ => (1 : ℚ)) 7) ∧
      (((resolveCollision (fun _ : ℚ => (1 : ℚ)) (fun _ => 0) (fun _ => 3)
            (Ball.mk 0 0 100 7 (-1) 28 100 0)
            (Ball.mk (-1) 3 101 7 0 28 100 3)).1.angle =
          (Ball.mk 0 0 100 7 (-1) 28 100 0 : Ball ℚ).angle ∧
        (resolveCollision (fun _ : ℚ => (1 : ℚ)) (fun _ => 0) (fun _ => 3)
            (Ball.mk 0 0 100 7 (-1) 28 100 0)
            (Ball.mk (-1) 3 101 7 0 28 100 3)).1.x =
          (Ball.mk 0 0 100 7 (-1) 28 100 0 : Ball ℚ).x ∧
        (resolveCollision (fun _ : ℚ => (1 : ℚ)) (fun _ => 0) (fun _ => 3)
            (Ball.mk 0 0 100 7 (-1) 28 100 0)
            (Ball.mk (-1) 3 101 7 0 28 100 3)).1.y =
          (Ball.mk 0 0 100 7 (-1) 28 100 0 : Ball ℚ).y) ∧
        ((resolveCollision (fun _ : ℚ => (1 : ℚ)) (fun _ => 0) (fun _ => 3)
            (Ball.mk 0 0 100 7 (-1) 28 100 0)
            (Ball.mk (-1) 3 101 7 0 28 100 3)).2.angle =
          (Ball.mk (-1) 3 101 7 0 28 100 3 : Ball ℚ).angle ∧
        (resolveCollision (fun _ : ℚ => (1 : ℚ)) (fun _ => 0) (fun _ => 3)
            (Ball.mk 0 0 100 7 (-1) 28 100 0)
            (Ball.mk (-1) 3 101 7 0 28 100 3)).2.x =
          (Ball.mk (-1) 3 101 7 0 28 100 3 : Ball ℚ).x ∧
        (resolveCollision (fun _ : ℚ => (1 : ℚ)) (fun _ => 0) (fun _ => 3)
            (Ball.mk 0 0 100 7 (-1) 28 100 0)
            (Ball.mk (-1) 3 101 7 0 28 100 3)).2.y =
          (Ball.mk (-1) 3 101 7 0 28 100 3 : Ball ℚ).y)) :=
  ⟨⟨rfl, by norm_num, by norm_num⟩,
    resolveCollision_vertical_no_separation (fun _ => 1) (fun _ => 0)
      (fun _ => 3) (Ball.mk 0 0 100 7 (-1) 28 100 0)
      (Ball.mk (-1) 3 101 7 0 28 100 3) rfl (by norm_num) (by norm_num)
      (by norm_num) (by norm_num)⟩

/-! ### Per-pixel shading and scanline rasterization
(`scanlineFillCircle`, `scanlineGlowRing`) -/

/-- Pre-normalised light direction (`LIGHT_LX`, `LIGHT_LY`). -/
def LIGHT_LX : ℚ := -(1 / 2) / (8602 / 10000)
def LIGHT_LY : ℚ := -(7 / 10) / (8602 / 10000)

/-- The per-pixel shading computation from the body of
`scanlineFillCircle`: normal reconstruction, Lambert diffuse, Phong-like
specular (8th power by three squarings), combination with clamp at 1.4,
Fresnel rim from the glow color, and the final per-channel clamp at 255.
The platform square root is the explicit parameter `sqrtq`. -/
def shade (sqrtq : ℚ → ℚ) (dx dy invR bR bG bB gR gG gB : ℚ) :
    ℚ × ℚ × ℚ :=
  let dist := sqrtq (dx * dx + dy * dy) * invR
  let nx := dx * invR
  let ny := dy * invR
  let nz2 := 1 - nx * nx - ny * ny
  let nz := if 0 < nz2 then sqrtq nz2 else 0
  let diff0 := nx * LIGHT_LX + ny * LIGHT_LY + nz * (7 / 10)
  let diff := if diff0 < 0 then 0 else diff0
  let spec0 := nz * (9 / 10) + diff * (3 / 10)
  let spec1 := if spec0 < 0 then 0 else spec0
  let spec2 := spec1 * spec1
  let spec4 := spec2 * spec2
  let spec8 := spec4 * spec4
  let shadeF0 := 12 / 100 + diff * (70 / 100) + spec8 * (50 / 100)
  let shadeF := if (14 : ℚ) / 10 < shadeF0 then 14 / 10 else shadeF0
  let rim := dist * dist
  let fR := bR * shadeF + gR * rim * (30 / 100)
  let fG := bG * shadeF + gG * rim * (30 / 100)
  let fB := bB * shadeF + gB * rim * (30 / 100)
  (min fR 255, min fG 255, min fB 255)

/-- Inclusive integer range `[lo, hi]` as a list. -/
def intRange (lo hi : ℤ) : List ℤ :=
  (List.range (hi + 1 - lo).toNat).map (fun i => lo + (i : ℤ))

/-- `scanlineFillCircle` of the non-scaling variant (no radius guard): the
list of pixel writes it issues, each with the shaded color.  For every
scanline `y` in `[cy - radius, cy + radius]` with nonnegative discriminant,
it fills the x-range `[cx - sqrt(disc), cx + sqrt(disc)]` (float endpoints
truncated to int). -/
def scanlineFillCircleV1 (sqrtq : ℚ → ℚ) (cx cy radius : ℤ)
    (bR bG bB gR gG gB : ℚ) : List ((ℤ × ℤ) × (ℚ × ℚ × ℚ)) :=
  let invR := 1 / (radius : ℚ)
  (intRange (cy - radius) (cy + radius)).flatMap (fun y =>
    let dyq : ℚ := ((y - cy : ℤ) : ℚ)
    let disc : ℚ := ((radius * radius : ℤ) : ℚ) - dyq * dyq
    if disc < 0 then []
    else
      let sqD := sqrtq disc
      let xLeft := ratTrunc ((cx : ℚ) - sqD)
      let xRight := ratTrunc ((cx : ℚ) + sqD)
      (intRange xLeft xRight).map (fun x =>
        ((x, y), shade sqrtq ((x - cx : ℤ) : ℚ) dyq invR bR bG bB gR gG gB)))

/-- `scanlineFillCircle` of the scaling variant: identical, but guarded by
an early return when `radius < 1`. -/
def scanlineFillCircle (sqrtq : ℚ → ℚ) (cx cy radius : ℤ)
    (bR bG bB gR gG gB : ℚ) : List ((ℤ × ℤ) × (ℚ × ℚ × ℚ)) :=
  if radius < 1 then []
  else scanlineFillCircleV1 sqrtq cx cy radius bR bG bB gR gG gB

/-- `scanlineGlowRing` of the non-scaling variant (no radius guard): pixel
writes with their alpha `(1 - dist) * 70`, skipping writes with alpha
below 1. -/
def scanlineGlowRingV1 (sqrtq : ℚ → ℚ) (cx cy radius : ℤ) :
    List ((ℤ × ℤ) × ℚ) :=
  let invR := 1 / (radius : ℚ)
  (intRange (cy - radius) (cy + radius)).flatMap (fun y =>
    let dyq : ℚ := ((y - cy : ℤ) : ℚ)
    let disc : ℚ := ((radius * radius : ℤ) : ℚ) - dyq * dyq
    if disc < 0 then []
    else
      let sqD := sqrtq disc
      let xLeft := ratTrunc ((cx : ℚ) - sqD)
      let xRight := ratTrunc ((cx : ℚ) + sqD)
      (intRange xLeft xRight).filterMap (fun x =>
        let dxq : ℚ := ((x - cx : ℤ) : ℚ)
        let dist := sqrtq (dxq * dxq + dyq * dyq) * invR
        let alphaV := (1 - dist) * 70
        if alphaV < 1 then none else some ((x, y), alphaV)))

/-- `scanlineGlowRing` of the scaling variant: identical, but guarded by an
early return when `radius < 1`. -/
def scanlineGlowRing (sqrtq : ℚ → ℚ) (cx cy radius : ℤ) :
    List ((ℤ × ℤ) × ℚ) :=
  if radius < 1 then [] else scanlineGlowRingV1 sqrtq cx cy radius

lemma intRange_nil {lo hi : ℤ} (h : hi < lo) : intRange lo hi = [] := by
  unfold intRange
  rw [Int.toNat_of_nonpos (by omega), List.range_zero]
  rfl

/-- Claim C8 (counterexample): in the non-scaling variant the fill routine
has no radius guard; at `radius = 0` (which is `< 1`) the `y = cy` scanline
has discriminant `0`, so it writes exactly the single pixel `(cx, cy)` —
not a no-op.  (The platform `sqrt` returns `0` on the argument `0` reached
here, matching the real square root.) -/
theorem scanlineFillCircleV1_radius_zero_writes :
    (0 : ℤ) < 1 ∧
      scanlineFillCircleV1 (fun _ => 0) 5 5 0 220 80 50 255 120 60 =
        [((5, 5),
          shade (fun _ => 0) 0 0 (1 / ((0 : ℤ) : ℚ)) 220 80 50 255 120 60)] ∧
      scanlineFillCircleV1 (fun _ => 0) 5 5 0 220 80 50 255 120 60 ≠ [] := by
  have hrange : intRange 5 5 = [5] := by
    unfold intRange
    norm_num
    rfl
  have htr : ratTrunc (((5 : ℤ) : ℚ)) = 5 := by
    unfold ratTrunc
    rw [if_neg (by norm_num)]
    exact Int.floor_intCast 5
  have heval : scanlineFillCircleV1 (fun _ => 0) 5 5 0 220 80 50 255 120 60 =
      [((5, 5),
        shade (fun _ => 0) 0 0 (1 / ((0 : ℤ) : ℚ)) 220 80 50 255 120 60)] := by
    simp only [scanlineFillCircleV1, sub_zero, add_zero, hrange,
      List.flatMap_cons, List.flatMap_nil, List.append_nil, sub_self,
      Int.cast_zero, mul_zero, zero_mul, sub_neg_eq_add]
    rw [if_neg (by norm_num)]
    simp only [htr, hrange, List.map_cons, List.map_nil, sub_self,
      Int.cast_zero]
  exact ⟨by decide, heval, by rw [heval] ; simp⟩

/-- Claim C8 (amended): the scaling variant's fill and glow-ring routines
are no-ops whenever `radius < 1`; the non-scaling variant's are no-ops
whenever `radius < 0` (for `radius = 0` they still write the center
pixel). -/
theorem fill_glow_radius_guards (sqrtq : ℚ → ℚ) (cx cy radius : ℤ)
    (bR bG bB gR gG gB : ℚ) :
    (radius < 1 →
      scanlineFillCircle sqrtq cx cy radius bR bG bB gR gG gB = [] ∧
        scanlineGlowRing sqrtq cx cy radius = []) ∧
    (radius < 0 →
      scanlineFillCircleV1 sqrtq cx cy radius bR bG bB gR gG gB = [] ∧
        scanlineGlowRingV1 sqrtq cx cy radius = []) := by
  constructor
  · intro h
    constructor
    · simp [scanlineFillCircle, h]
    · simp [scanlineGlowRing, h]
  · intro h
    have hr : cy + radius < cy - radius := by omega
    constructor
    · simp [scanlineFillCircleV1, intRange_nil hr]
    · simp [scanlineGlowRingV1, intRange_nil hr]

/-- Witness for `fill_glow_radius_guards` at `radius = -3` (both variants)
and the scaling variant at `radius = 0`. -/
theorem fill_glow_radius_guards_witness :
    ((-3 : ℤ) < 1 ∧ (-3 : ℤ) < 0) ∧
      ((scanlineFillCircle (fun _ => 0) 5 5 (-3) 220 80 50 255 120 60 = [] ∧
          scanlineGlowRing (fun _ => 0) 5 5 (-3) = []) ∧
        (scanlineFillCircleV1 (fun _ => 0) 5 5 (-3) 220 80 50 255 120 60
            = [] ∧
          scanlineGlowRingV1 (fun _ => 0) 5 5 (-3) = [])) :=
  ⟨⟨by decide, by decide⟩,
    ⟨(fill_glow_radius_guards (fun _ => 0) 5 5 (-3) 220 80 50 255 120 60).1
        (by decide),
      (fill_glow_radius_guards (fun _ => 0) 5 5 (-3) 220 80 50 255 120 60).2
        (by decide)⟩⟩

/-- Claim C9: the per-pixel shading computation is a pure, deterministic
function of its inputs — two evaluations with the same `dx`, `dy`, inverse
radius, base color and glow color (and the same platform square root)
produce identical RGB samples. -/
theorem shade_deterministic (sqrtq : ℚ → ℚ)
    (dx1 dy1 invR1 bR1 bG1 bB1 gR1 gG1 gB1 : ℚ)
    (dx2 dy2 invR2 bR2 bG2 bB2 gR2 gG2 gB2 : ℚ)
    (h1 : dx1 = dx2) (h2 : dy1 = dy2) (h3 : invR1 = invR2)
    (h4 : bR1 = bR2) (h5 : bG1 = bG2) (h6 : bB1 = bB2)
    (h7 : gR1 = gR2) (h8 : gG1 = gG2) (h9 : gB1 = gB2) :
    shade sqrtq dx1 dy1 invR1 bR1 bG1 bB1 gR1 gG1 gB1 =
      shade sqrtq dx2 dy2 invR2 bR2 bG2 bB2 gR2 gG2 gB2 := by
  subst h1 h2 h3 h4 h5 h6 h7 h8 h9
  rfl

/-- Witness for `shade_deterministic` at concrete inputs (an off-center
pixel of ball A). -/
theorem shade_deterministic_witness :
    ((3 : ℚ) = 3 ∧ (-4 : ℚ) = -4 ∧ (1 / 28 : ℚ) = 1 / 28 ∧
        (220 : ℚ) = 220 ∧ (80 : ℚ) = 80 ∧ (50 : ℚ) = 50 ∧
        (255 : ℚ) = 255 ∧ (120 : ℚ) = 120 ∧ (60 : ℚ) = 60) ∧
      shade (fun q => q) 3 (-4) (1 / 28) 220 80 50 255 120 60 =
        shade (fun q => q) 3 (-4) (1 / 28) 220 80 50 255 120 60 :=
  ⟨⟨rfl, rfl, rfl, rfl, rfl, rfl, rfl, rfl, rfl⟩,
    shade_deterministic (fun q => q) 3 (-4) (1 / 28) 220 80 50 255 120 60
      3 (-4) (1 / 28) 220 80 50 255 120 60
      rfl rfl rfl rfl rfl rfl rfl rfl rfl⟩

/-! ### Alpha-blended pixel writes (`setPixel`) -/

/-- The real-valued quantities `setPixel` computes in its `a < 255` branch,
before each is cast to an 8-bit channel: the three blended channels
`src * fa + dst * fb` and the blended alpha `(fa + fb) * 255`, where
`fa = a / 255` and `fb = (dstA / 255) * (1 - fa)`. -/
def setPixelBlendPre (r g b a dr dg db da : ℕ) : ℚ × ℚ × ℚ × ℚ :=
  let fa : ℚ := (a : ℚ) / 255
  let fb : ℚ := ((da : ℚ) / 255) * (1 - fa)
  ((r : ℚ) * fa + (dr : ℚ) * fb,
   (g : ℚ) * fa + (dg : ℚ) * fb,
   (b : ℚ) * fa + (db : ℚ) * fb,
   (fa + fb) * 255)

lemma blend_channel_bounds {src dst fa fb : ℚ} (hsrc0 : 0 ≤ src)
    (hsrc : src ≤ 255) (hdst0 : 0 ≤ dst) (hdst : dst ≤ 255)
    (hfa0 : 0 ≤ fa) (hfb0 : 0 ≤ fb) (hsum : fa + fb ≤ 1) :
    0 ≤ src * fa + dst * fb ∧ src * fa + dst * fb ≤ 255 := by
  constructor
  · have := mul_nonneg hsrc0 hfa0
    have := mul_nonneg hdst0 hfb0
    linarith
  · have h1 : src * fa ≤ 255 * fa := by nlinarith
    have h2 : dst * fb ≤ 255 * fb := by nlinarith
    nlinarith

/-- Claim C10: for every in-bounds blended write (`a < 255`) against any
stored destination pixel, each of the three blended channel values and the
blended alpha computed by `setPixel` lies in `[0, 255]` before the
narrowing cast, because `fa + fb = fa + (dstA/255)*(1 - fa) ≤ 1`; the cast
never truncates an out-of-range value. -/
theorem setPixel_blend_in_range (r g b a dr dg db da : ℕ)
    (hr : r ≤ 255) (hg : g ≤ 255) (hb : b ≤ 255) (ha : a < 255)
    (hdr : dr ≤ 255) (hdg : dg ≤ 255) (hdb : db ≤ 255) (hda : da ≤ 255) :
    (0 ≤ (setPixelBlendPre r g b a dr dg db da).1 ∧
        (setPixelBlendPre r g b a dr dg db da).1 ≤ 255) ∧
      (0 ≤ (setPixelBlendPre r g b a dr dg db da).2.1 ∧
        (setPixelBlendPre r g b a dr dg db da).2.1 ≤ 255) ∧
      (0 ≤ (setPixelBlendPre r g b a dr dg db da).2.2.1 ∧
        (setPixelBlendPre r g b a dr dg db da).2.2.1 ≤ 255) ∧
      (0 ≤ (setPixelBlendPre r g b a dr dg db da).2.2.2 ∧
        (setPixelBlendPre r g b a dr dg db da).2.2.2 ≤ 255) := by
  have haq : (a : ℚ) ≤ 254 := by exact_mod_cast Nat.lt_succ_iff.mp ha
  have haq0 : (0 : ℚ) ≤ (a : ℚ) := by positivity
  have hdaq : (da : ℚ) ≤ 255 := by exact_mod_cast hda
  have hdaq0 : (0 : ℚ) ≤ (da : ℚ) := by positivity
  have hfa0 : (0 : ℚ) ≤ (a : ℚ) / 255 := by positivity
  have hfa1 : (a : ℚ) / 255 ≤ 1 := by
    rw [div_le_one (by norm_num)] ; linarith
  have hfb0 : (0 : ℚ) ≤ ((da : ℚ) / 255) * (1 - (a : ℚ) / 255) := by
    apply mul_nonneg (by positivity)
    linarith
  have hsum : (a : ℚ) / 255 + ((da : ℚ) / 255) * (1 - (a : ℚ) / 255) ≤ 1 := by
    have hd1 : (da : ℚ) / 255 ≤ 1 := by
      rw [div_le_one (by norm_num)] ; linarith
    nlinarith
  have hrq : ((r : ℚ) ≤ 255) := by exact_mod_cast hr
  have hgq : ((g : ℚ) ≤ 255) := by exact_mod_cast hg
  have hbq : ((b : ℚ) ≤ 255) := by exact_mod_cast hb
  have hdrq : ((dr : ℚ) ≤ 255) := by exact_mod_cast hdr
  have hdgq : ((dg : ℚ) ≤ 255) := by exact_mod_cast hdg
  have hdbq : ((db : ℚ) ≤ 255) := by exact_mod_cast hdb
  simp only [setPixelBlendPre]
  refine ⟨?_, ?_, ?_, ?_⟩
  · exact blend_channel_bounds (by positivity) hrq (by positivity) hdrq
      hfa0 hfb0 hsum
  · exact blend_channel_bounds (by positivity) hgq (by positivity) hdgq
      hfa0 hfb0 hsum
  · exact blend_channel_bounds (by positivity) hbq (by positivity) hdbq
      hfa0 hfb0 hsum
  · constructor
    · nlinarith
    · nlinarith

/-- Witness for `setPixel_blend_in_range`: the glow-ring color at alpha 70
blended over the cleared background. -/
theorem setPixel_blend_in_range_witness :
    ((255 : ℕ) ≤ 255 ∧ (120 : ℕ) ≤ 255 ∧ (60 : ℕ) ≤ 255 ∧ (70 : ℕ) < 255 ∧
        (10 : ℕ) ≤ 255 ∧ (10 : ℕ) ≤ 255 ∧ (15 : ℕ) ≤ 255 ∧
        (255 : ℕ) ≤ 255) ∧
      ((0 ≤ (setPixelBlendPre 255 120 60 70 10 10 15 255).1 ∧
          (setPixelBlendPre 255 120 60 70 10 10 15 255).1 ≤ 255) ∧
        (0 ≤ (setPixelBlendPre 255 120 60 70 10 10 15 255).2.1 ∧
          (setPixelBlendPre 255 120 60 70 10 10 15 255).2.1 ≤ 255) ∧
        (0 ≤ (setPixelBlendPre 255 120 60 70 10 10 15 255).2.2.1 ∧
          (setPixelBlendPre 255 120 60 70 10 10 15 255).2.2.1 ≤ 255) ∧
        (0 ≤ (setPixelBlendPre 255 120 60 70 10 10 15 255).2.2.2 ∧
          (setPixelBlendPre 255 120 60 70 10 10 15 255).2.2.2 ≤ 255)) :=
  ⟨⟨by norm_num, by norm_num, by norm_num, by norm_num, by norm_num,
      by norm_num, by norm_num, by norm_num⟩,
    setPixel_blend_in_range 255 120 60 70 10 10 15 255 (by norm_num)
      (by norm_num) (by norm_num) (by norm_num) (by norm_num) (by norm_num)
      (by norm_num) (by norm_num)⟩

/-! ### Bresenham line (`bresenhamLine`) -/

/-- The loop of `bresenhamLine`, with explicit fuel. -/
def bresLoop (x1 y1 dx dy sx sy : ℤ) : ℕ → ℤ → ℤ → ℤ → List (ℤ × ℤ)
  | 0, _, _, _ => []
  | fuel + 1, x0, y0, err =>
    (x0, y0) ::
      (if x0 = x1 ∧ y0 = y1 then []
       else
         let e2 := 2 * err
         let x0' := if dy ≤ e2 then x0 + sx else x0
         let err1 := if dy ≤ e2 then err + dy else err
         let y0' := if e2 ≤ dx then y0 + sy else y0
         let err2 := if e2 ≤ dx then err1 + dx else err1
         bresLoop x1 y1 dx dy sx sy fuel x0' y0' err2)

/-- `bresenhamLine`: the list of pixels visited. -/
def bresenhamLine (x0 y0 x1 y1 : ℤ) : List (ℤ × ℤ) :=
  let dx := |x1 - x0|
  let dy := -|y1 - y0|
  let sx : ℤ := if x0 < x1 then 1 else -1
  let sy : ℤ := if y0 < y1 then 1 else -1
  bresLoop x1 y1 dx dy sx sy (|x1 - x0| + |y1 - y0| + 1).toNat x0 y0 (dx + dy)

/-- 8-adjacency: Chebyshev distance exactly 1. -/
def cheb1 (a b : ℤ × ℤ) : Prop := max |b.1 - a.1| |b.2 - a.2| = 1

/-- Diagonal progress measure along the step directions. -/
def diag (sx sy : ℤ) (a : ℤ × ℤ) : ℤ := sx * a.1 + sy * a.2

lemma bresLoop_spec (x1 y1 dx dy sx sy : ℤ)
    (hsx : sx = 1 ∨ sx = -1) (hsy : sy = 1 ∨ sy = -1)
    (hdx0 : 0 ≤ dx) (hdy0 : dy ≤ 0) :
    ∀ (fuel : ℕ) (x y err : ℤ),
      0 ≤ sx * (x1 - x) → sx * (x1 - x) ≤ dx →
      0 ≤ sy * (y1 - y) → sy * (y1 - y) ≤ -dy →
      err = dx + dy + (-dy) * (sx * (x1 - x)) - dx * (sy * (y1 - y)) →
      sx * (x1 - x) + sy * (y1 - y) < (fuel : ℤ) →
      (bresLoop x1 y1 dx dy sx sy fuel x y err).head? = some (x, y) ∧
      (bresLoop x1 y1 dx dy sx sy fuel x y err).getLast? = some (x1, y1) ∧
      List.Chain' cheb1 (bresLoop x1 y1 dx dy sx sy fuel x y err) ∧
      List.Pairwise (fun a b => diag sx sy a < diag sx sy b)
        (bresLoop x1 y1 dx dy sx sy fuel x y err) ∧
      ∀ c ∈ bresLoop x1 y1 dx dy sx sy fuel x y err,
        diag sx sy (x, y) ≤ diag sx sy c := by
  have hsx2 : sx * sx = 1 := by rcases hsx with rfl | rfl <;> norm_num
  have hsy2 : sy * sy = 1 := by rcases hsy with rfl | rfl <;> norm_num
  have hsxa : |sx| = 1 := by rcases hsx with rfl | rfl <;> norm_num
  have hsya : |sy| = 1 := by rcases hsy with rfl | rfl <;> norm_num
  have hsxne : sx ≠ 0 := by rcases hsx with rfl | rfl <;> norm_num
  have hsyne : sy ≠ 0 := by rcases hsy with rfl | rfl <;> norm_num
  intro fuel
  induction fuel with
  | zero =>
      intro x y err hp0 hpX hq0 hqY hinv hfuel
      exfalso
      push_cast at hfuel
      omega
  | succ f ih =>
      intro x y err hp0 hpX hq0 hqY hinv hfuel
      by_cases hend : x = x1 ∧ y = y1
      · have hlist : bresLoop x1 y1 dx dy sx sy (f + 1) x y err = [(x, y)] := by
          simp [bresLoop, hend.1, hend.2]
        rw [hlist]
        refine ⟨rfl, ?_, List.chain'_singleton _,
          List.pairwise_singleton _ _, ?_⟩
        · rw [List.getLast?_singleton, hend.1, hend.2]
        · intro c hc
          simp only [List.mem_singleton] at hc
          subst hc
          exact le_refl _
      · -- at least one of p, q is positive
        have hpq : 1 ≤ sx * (x1 - x) + sy * (y1 - y) := by
          rcases (not_and_or.mp hend) with hne | hne
          · have : sx * (x1 - x) ≠ 0 := by
              intro hzero
              rcases mul_eq_zero.mp hzero with h | h
              · exact hsxne h
              · exact hne (by omega)
            omega
          · have : sy * (y1 - y) ≠ 0 := by
              intro hzero
              rcases mul_eq_zero.mp hzero with h | h
              · exact hsyne h
              · exact hne (by omega)
            omega
        -- the p = 0 and q = 0 degenerate directions are blocked
        have hfactA : sx * (x1 - x) = 0 → ¬(dy ≤ 2 * err) := by
          intro hp hA
          have hq1 : 1 ≤ sy * (y1 - y) := by omega
          have hdy1 : dy ≤ -1 := by omega
          have hprod : 0 ≤ dx * (sy * (y1 - y) - 1) :=
            mul_nonneg hdx0 (by omega)
          rw [hinv, hp] at hA
          nlinarith
        have hfactB : sy * (y1 - y) = 0 → ¬(2 * err ≤ dx) := by
          intro hq hB
          have hp1 : 1 ≤ sx * (x1 - x) := by omega
          have hdx1 : 1 ≤ dx := by omega
          have hprod : 0 ≤ (-dy) * (sx * (x1 - x) - 1) :=
            mul_nonneg (by omega) (by omega)
          rw [hinv, hq] at hB
          nlinarith
        have hAB : (dy ≤ 2 * err) ∨ (2 * err ≤ dx) := by
          by_contra hcon
          push_neg at hcon
          omega
        simp only [bresLoop, if_neg hend]
        by_cases hA : dy ≤ 2 * err <;> by_cases hB : 2 * err ≤ dx
        · -- diagonal step
          have hp1 : 1 ≤ sx * (x1 - x) := by
            rcases eq_or_lt_of_le hp0 with h | h
            · exact absurd hA (hfactA h.symm)
            · omega
          have hq1 : 1 ≤ sy * (y1 - y) := by
            rcases eq_or_lt_of_le hq0 with h | h
            · exact absurd hB (hfactB h.symm)
            · omega
          simp only [if_pos hA, if_pos hB]
          have hp' : sx * (x1 - (x + sx)) = sx * (x1 - x) - 1 := by
            have : sx * (x1 - (x + sx)) = sx * (x1 - x) - sx * sx := by ring
            rw [this, hsx2]
          have hq' : sy * (y1 - (y + sy)) = sy * (y1 - y) - 1 := by
            have : sy * (y1 - (y + sy)) = sy * (y1 - y) - sy * sy := by ring
            rw [this, hsy2]
          obtain ⟨ihh, ihl, ihc, ihpw, ihlb⟩ :=
            ih (x + sx) (y + sy) (err + dy + dx)
              (by rw [hp'] ; omega) (by rw [hp'] ; omega)
              (by rw [hq'] ; omega) (by rw [hq'] ; omega)
              (by rw [hp', hq', hinv] ; ring)
              (by rw [hp', hq'] ; push_cast at hfuel ; omega)
          refine ⟨rfl, ?_, ?_, ?_, ?_⟩
          · cases hlist : bresLoop x1 y1 dx dy sx sy f (x + sx) (y + sy)
                (err + dy + dx) with
            | nil => rw [hlist] at ihh ; exact absurd ihh (by simp)
            | cons hd tl =>
                rw [hlist] at ihl
                rw [List.getLast?_cons_cons]
                exact ihl
          · rw [List.chain'_cons']
            refine ⟨?_, ihc⟩
            intro z hz
            rw [ihh] at hz
            simp only [Option.mem_def, Option.some.injEq] at hz
            subst hz
            simp only [cheb1]
            have h1 : x + sx - x = sx := by ring
            have h2 : y + sy - y = sy := by ring
            rw [h1, h2, hsxa, hsya]
            norm_num
          · rw [List.pairwise_cons]
            refine ⟨?_, ihpw⟩
            intro z hz
            have hlb := ihlb z hz
            have hstep : diag sx sy (x, y) < diag sx sy (x + sx, y + sy) := by
              simp only [diag]
              nlinarith
            exact lt_of_lt_of_le hstep hlb
          · intro c hc
            rcases List.mem_cons.mp hc with rfl | hc
            · exact le_refl _
            · have hlb := ihlb c hc
              have hstep : diag sx sy (x, y) ≤ diag sx sy (x + sx, y + sy) := by
                simp only [diag]
                nlinarith
              exact le_trans hstep hlb
        · -- x-only step
          have hp1 : 1 ≤ sx * (x1 - x) := by
            rcases eq_or_lt_of_le hp0 with h | h
            · exact absurd hA (hfactA h.symm)
            · omega
          simp only [if_pos hA, if_neg hB]
          have hp' : sx * (x1 - (x + sx)) = sx * (x1 - x) - 1 := by
            have : sx * (x1 - (x + sx)) = sx * (x1 - x) - sx * sx := by ring
            rw [this, hsx2]
          obtain ⟨ihh, ihl, ihc, ihpw, ihlb⟩ :=
            ih (x + sx) y (err + dy)
              (by rw [hp'] ; omega) (by rw [hp'] ; omega) hq0 hqY
              (by rw [hp', hinv] ; ring)
              (by rw [hp'] ; push_cast at hfuel ; omega)
          refine ⟨rfl, ?_, ?_, ?_, ?_⟩
          · cases hlist : bresLoop x1 y1 dx dy sx sy f (x + sx) y
                (err + dy) with
            | nil => rw [hlist] at ihh ; exact absurd ihh (by simp)
            | cons hd tl =>
                rw [hlist] at ihl
                rw [List.getLast?_cons_cons]
                exact ihl
          · rw [List.chain'_cons']
            refine ⟨?_, ihc⟩
            intro z hz
            rw [ihh] at hz
            simp only [Option.mem_def, Option.some.injEq] at hz
            subst hz
            simp only [cheb1]
            have h1 : x + sx - x = sx := by ring
            have h2 : y - y = (0 : ℤ) := by ring
            rw [h1, h2, hsxa]
            norm_num
          · rw [List.pairwise_cons]
            refine ⟨?_, ihpw⟩
            intro z hz
            have hlb := ihlb z hz
            have hstep : diag sx sy (x, y) < diag sx sy (x + sx, y) := by
              simp only [diag]
              nlinarith
            exact lt_of_lt_of_le hstep hlb
          · intro c hc
            rcases List.mem_cons.mp hc with rfl | hc
            · exact le_refl _
            · have hlb := ihlb c hc
              have hstep : diag sx sy (x, y) ≤ diag sx sy (x + sx, y) := by
                simp only [diag]
                nlinarith
              exact le_trans hstep hlb
        · -- y-only step
          have hq1 : 1 ≤ sy * (y1 - y) := by
            rcases eq_or_lt_of_le hq0 with h | h
            · exact absurd hB (hfactB h.symm)
            · omega
          simp only [if_neg hA, if_pos hB]
          have hq' : sy * (y1 - (y + sy)) = sy * (y1 - y) - 1 := by
            have : sy * (y1 - (y + sy)) = sy * (y1 - y) - sy * sy := by ring
            rw [this, hsy2]
          obtain ⟨ihh, ihl, ihc, ihpw, ihlb⟩ :=
            ih x (y + sy) (err + dx)
              hp0 hpX (by rw [hq'] ; omega) (by rw [hq'] ; omega)
              (by rw [hq', hinv] ; ring)
              (by rw [hq'] ; push_cast at hfuel ; omega)
          refine ⟨rfl, ?_, ?_, ?_, ?_⟩
          · cases hlist : bresLoop x1 y1 dx dy sx sy f x (y + sy)
                (err + dx) with
            | nil => rw [hlist] at ihh ; exact absurd ihh (by simp)
            | cons hd tl =>
                rw [hlist] at ihl
                rw [List.getLast?_cons_cons]
                exact ihl
          · rw [List.chain'_cons']
            refine ⟨?_, ihc⟩
            intro z hz
            rw [ihh] at hz
            simp only [Option.mem_def, Option.some.injEq] at hz
            subst hz
            simp only [cheb1]
            have h1 : x - x = (0 : ℤ) := by ring
            have h2 : y + sy - y = sy := by ring
            rw [h1, h2, hsya]
            norm_num
          · rw [List.pairwise_cons]
            refine ⟨?_, ihpw⟩
            intro z hz
            have hlb := ihlb z hz
            have hstep : diag sx sy (x, y) < diag sx sy (x, y + sy) := by
              simp only [diag]
              nlinarith
            exact lt_of_lt_of_le hstep hlb
          · intro c hc
            rcases List.mem_cons.mp hc with rfl | hc
            · exact le_refl _
            · have hlb := ihlb c hc
              have hstep : diag sx sy (x, y) ≤ diag sx sy (x, y + sy) := by
                simp only [diag]
                nlinarith
              exact le_trans hstep hlb
        · exact absurd hAB (by
            push_neg
            constructor <;> omega)



/-- Claim C4: for every pair of integer endpoints, the Bresenham line
routine produces a nonempty simple 8-connected path: it starts at the first
endpoint, ends at the second, consecutive visited pixels are at Chebyshev
distance exactly 1, and no pixel is visited twice; coincident endpoints
degenerate to the single pixel; and the concrete line from `(0,0)` to
`(5,0)` visits exactly `(0,0) … (5,0)`, each once, in x-increasing order. -/
theorem bresenham_line_path :
    (∀ x0 y0 x1 y1 : ℤ,
        (bresenhamLine x0 y0 x1 y1).head? = some (x0, y0) ∧
        (bresenhamLine x0 y0 x1 y1).getLast? = some (x1, y1) ∧
        List.Chain' cheb1 (bresenhamLine x0 y0 x1 y1) ∧
        (bresenhamLine x0 y0 x1 y1).Nodup) ∧
      (∀ x0 y0 : ℤ, bresenhamLine x0 y0 x0 y0 = [(x0, y0)]) ∧
      bresenhamLine 0 0 5 0 =
        [(0, 0), (1, 0), (2, 0), (3, 0), (4, 0), (5, 0)] := by
  refine ⟨?_, ?_, ?_⟩
  · intro x0 y0 x1 y1
    have hsx : (if x0 < x1 then (1 : ℤ) else -1) = 1 ∨
        (if x0 < x1 then (1 : ℤ) else -1) = -1 := by
      split_ifs <;> simp
    have hsy : (if y0 < y1 then (1 : ℤ) else -1) = 1 ∨
        (if y0 < y1 then (1 : ℤ) else -1) = -1 := by
      split_ifs <;> simp
    have hp : (if x0 < x1 then (1 : ℤ) else -1) * (x1 - x0) = |x1 - x0| := by
      split_ifs with h
      · rw [abs_of_nonneg (by omega)] ; ring
      · rw [abs_of_nonpos (by omega)] ; ring
    have hq : (if y0 < y1 then (1 : ℤ) else -1) * (y1 - y0) = |y1 - y0| := by
      split_ifs with h
      · rw [abs_of_nonneg (by omega)] ; ring
      · rw [abs_of_nonpos (by omega)] ; ring
    obtain ⟨hh, hl, hc, hpw, _⟩ :=
      bresLoop_spec x1 y1 (|x1 - x0|) (-|y1 - y0|)
        (if x0 < x1 then 1 else -1) (if y0 < y1 then 1 else -1)
        hsx hsy (abs_nonneg _) (by simp [abs_nonneg])
        (|x1 - x0| + |y1 - y0| + 1).toNat x0 y0 (|x1 - x0| + -|y1 - y0|)
        (by rw [hp] ; exact abs_nonneg _) (by rw [hp])
        (by rw [hq] ; exact abs_nonneg _) (by rw [hq] ; simp)
        (by rw [hp, hq] ; ring)
        (by
          rw [hp, hq, Int.toNat_of_nonneg
            (by positivity : (0 : ℤ) ≤ |x1 - x0| + |y1 - y0| + 1)]
          omega)
    exact ⟨hh, hl, hc, hpw.imp (fun hab => fun heq => by
      subst heq ; exact lt_irrefl _ hab)⟩
  · intro x0 y0
    simp [bresenhamLine, bresLoop]
  · decide

end CGSim
